import Mathlib

/-!
Shallow embedding of the control-flow-graph builder of
`2019/lib/intcode_to_dot.py` (the `cfg` function and its helper
`breaks_basic_block`), together with proofs about the block partition and
the edge list it produces.

The instruction decoder (`Op.fromcode`, the `intcode` module) is an external
collaborator: `cfg`'s decode loop (lines 77-83) consumes it to obtain a
linear sequence of decoded instructions with strictly increasing addresses.
We take that decoded sequence as the input of the embedded algorithm; the
few facts `cfg` reads off a decoded instruction (address, mnemonic class,
addressing modes, raw argument values) are fields of our `Op` structure.
-/

set_option maxRecDepth 10000

namespace IntcodeCFG

/-- Mnemonic-equivalent classification of a decoded instruction. The CFG
builder only inspects whether an instruction is a conditional jump
(`jnz`, `jz`, line 20), a halt (`type(op) == OpHlt`, line 122) or an
invalid-opcode filler (`OpInvalid`); the remaining valid operations of the
toy ISA are listed for completeness and all behave alike. -/
inductive Mnemonic
  | add | mul | inp | out | jnz | jz | lt | eq | rel | hlt | invalid
deriving DecidableEq, Repr, Inhabited

/-- A decoded instruction as handed over by the instruction decoder:
program counter (`op.pc`), storage length (`op.length`), mnemonic class,
argument addressing modes (`op.argmodes`) and raw argument values
(`op.args`). The `head`, `tail` and `block_id` attributes that `cfg` adds
by mutation are modelled separately (see `AOp`). -/
structure Op where
  pc : Nat
  length : Nat
  mnemonic : Mnemonic
  argmodes : List Nat
  args : List Int
deriving DecidableEq, Repr, Inhabited

/-- Modelled from the spec: the addressing-mode constants live in the
external `intcode` module. Positional is 0, immediate is 1, relative is 2;
only `ARGMODE_IMMEDIATE` is inspected by the CFG builder. -/
def ARGMODE_POSITIONAL : Nat := 0

/-- Immediate addressing mode (the only one the CFG builder tests). -/
def ARGMODE_IMMEDIATE : Nat := 1

/-- Relative addressing mode. -/
def ARGMODE_RELATIVE : Nat := 2

/-- Source lines 19-20: an instruction breaks a basic block iff it is a
conditional jump (`jnz` or `jz`) whose second argument (the jump target,
index 1) uses immediate addressing. `op.argmodes[1]` is only reached when
the mnemonic is `jnz`/`jz`, which always carry two arguments; the `getD`
default 0 (positional) is never the deciding value for such instructions. -/
def breaks_basic_block (op : Op) : Bool :=
  (op.mnemonic == Mnemonic.jnz || op.mnemonic == Mnemonic.jz)
    && op.argmodes.getD 1 0 == ARGMODE_IMMEDIATE

/-- Modelled from the spec: `decode_arg` belongs to the external `intcode`
module, absent from the sources. Per the spec an immediate argument's
resolved value is the operand itself, and `jump_addr` (source line 92) is
only ever computed for tails, whose jump-target argument (index 1) is
immediate by definition of `breaks_basic_block`. -/
def jump_addr (op : Op) : Int := op.args.getD 1 0

/-- Head marking (source lines 85-96) expressed per position `i` of the
decoded stream: the first instruction is a head (line 85); an instruction
whose immediate predecessor is a tail is a head (lines 87-89); an
instruction whose address is the jump target of some tail is a head
(lines 91-96). The source performs the third marking through the
`addr_to_op` dictionary; addresses of decoded instructions are unique
(the decode loop advances `pc` by positive lengths), so dictionary lookup
coincides with address equality. -/
def isHeadAt (ops : List Op) (i : Nat) : Bool :=
  i == 0
    || (match i with
        | 0 => false
        | j + 1 => breaks_basic_block (ops.getD j default))
    || ops.any (fun t =>
        breaks_basic_block t && jump_addr t == ((ops.getD i default).pc : Int))

/-- An instruction annotated with the attributes `cfg` sets by mutation:
the `head` flag (lines 79, 85-96), the `tail` flag (line 80) and the
`block_id` counter value recorded while partitioning (line 104). -/
structure AOp where
  op : Op
  head : Bool
  tail : Bool
  block_id : Nat
deriving DecidableEq, Repr, Inhabited

/-- The decoded stream with the head and tail flags computed by the marking
passes (source lines 77-96), one triple per instruction in address order. -/
def tagged (ops : List Op) : List (Op × Bool × Bool) :=
  ops.enum.map (fun p => (p.2, isHeadAt ops p.1, breaks_basic_block p.2))

/-- Partition loop (source lines 103-116): each instruction records the
current `cur_block_id` before the head test; a head closes the current
block (when one is open) and opens a new one, incrementing the counter;
any other instruction is appended to the current block. A non-head
instruction with no open block never arises, because the first instruction
is always a head (line 85); the source would raise there, and we leave the
accumulator unchanged in that unreachable branch. -/
def partGo : List (Op × Bool × Bool) → Option (List AOp) → Nat →
    List (List AOp) → List (List AOp)
  | [], some b, _, bs => bs ++ [b]
  | [], none, _, bs => bs
  | (op, hd, tl) :: rest, cur, id, bs =>
    if hd then
      partGo rest (some [⟨op, hd, tl, id⟩]) (id + 1)
        (match cur with
         | some b => bs ++ [b]
         | none => bs)
    else
      match cur with
      | some b => partGo rest (some (b ++ [⟨op, hd, tl, id⟩])) id bs
      | none => partGo rest none id bs

/-- The list of basic blocks produced by `cfg` (source lines 98-116). -/
def cfg_blocks (ops : List Op) : List (List AOp) :=
  partGo (tagged ops) none 0 []

/-- All annotated instructions in address order, exactly the objects stored
in the blocks (and the values of the `addr_to_op` dictionary). -/
def allOps (ops : List Op) : List AOp := (cfg_blocks ops).flatten

/-- The `addr_to_op` dictionary lookup (source lines 82, 94, 126): the
annotated instruction whose address equals the given value, if any.
Decoded addresses are unique, so `find?` agrees with the dictionary. -/
def addr_to_op (ops : List Op) (a : Int) : Option AOp :=
  (allOps ops).find? (fun x => (x.op.pc : Int) == a)

/-- Edge kind constants (source line 152): `J_UNCONDITIONAL`, `J_TRUE`,
`J_FALSE = range(3)`. -/
def J_UNCONDITIONAL : Nat := 0

/-- Edge kind of a taken conditional branch. -/
def J_TRUE : Nat := 1

/-- Edge kind of an untaken conditional branch (fallthrough of a tail). -/
def J_FALSE : Nat := 2

/-- The block at position `i` of the block list (`blocks[i]` in the edge
loop of line 118; the empty list as default is never reached for the
positions the loop visits). -/
def blockAt (blocks : List (List AOp)) (i : Nat) : List AOp := blocks.getD i []

/-- The last instruction of a block (`prev[-1]`, source line 120; blocks
are non-empty by construction, so the default is never reached there). -/
def lastOp (b : List AOp) : AOp := b.getD (b.length - 1) default

/-- The first instruction of a block (`cur[0]`, source line 130). -/
def firstOp (b : List AOp) : AOp := b.getD 0 default

/-- The edges emitted for the consecutive block pair at positions
`(i, i+1)` (source lines 118-133): nothing when the previous block ends in
a halt (line 122); otherwise an optional `J_TRUE` edge towards the jump
target's `block_id` when the previous block ends in a tail with a target
present in `addr_to_op` (lines 125-128), followed by the fallthrough edge
to block `i+1`, whose kind is `J_FALSE` when the previous block ends in a
tail and the next block starts with a head (lines 130-131) and
`J_UNCONDITIONAL` otherwise (line 119). -/
def edge_step (ops : List Op) (blocks : List (List AOp)) (i : Nat) :
    List (Nat × Nat × Nat) :=
  if (lastOp (blockAt blocks i)).op.mnemonic == Mnemonic.hlt then []
  else
    (if (lastOp (blockAt blocks i)).tail then
      match addr_to_op ops (jump_addr (lastOp (blockAt blocks i)).op) with
      | some dst => [(i, dst.block_id, J_TRUE)]
      | none => []
    else []) ++
    [(i, i + 1,
      if (lastOp (blockAt blocks i)).tail && (firstOp (blockAt blocks (i + 1))).head
      then J_FALSE else J_UNCONDITIONAL)]

/-- The edge list of `cfg` (source lines 118-133): the loop ranges over
consecutive block pairs, so `i` runs from 0 to the number of blocks minus
two. -/
def cfg_edges (ops : List Op) : List (Nat × Nat × Nat) :=
  (List.range ((cfg_blocks ops).length - 1)).flatMap
    (edge_step ops (cfg_blocks ops))

/-! Proof-side recursors: `annGo` lists the annotated instructions the
partition loop produces, in address order, starting from a given value of
the `cur_block_id` counter; `blkGo` lists the blocks the loop produces
from an open current block onwards. Both are related to `partGo` below. -/

/-- Annotated instructions produced from a tagged stream, threading the
`cur_block_id` counter exactly as the partition loop does (assignment
before the head test, increment on heads). -/
def annGo : List (Op × Bool × Bool) → Nat → List AOp
  | [], _ => []
  | (op, hd, tl) :: rest, id =>
    ⟨op, hd, tl, id⟩ :: annGo rest (if hd then id + 1 else id)

/-- Blocks produced from a tagged stream given the open current block and
the counter value: a head closes the current block and opens a new one,
anything else extends the current block; the last open block is closed at
the end of the stream. -/
def blkGo : List (Op × Bool × Bool) → List AOp → Nat → List (List AOp)
  | [], b, _ => [b]
  | (op, hd, tl) :: rest, b, id =>
    if hd then b :: blkGo rest [⟨op, hd, tl, id⟩] (id + 1)
    else blkGo rest (b ++ [⟨op, hd, tl, id⟩]) id

theorem partGo_some (rest : List (Op × Bool × Bool)) (b : List AOp) (id : Nat)
    (bs : List (List AOp)) :
    partGo rest (some b) id bs = bs ++ blkGo rest b id := by
  induction rest generalizing b id bs with
  | nil => simp [partGo, blkGo]
  | cons t rest ih =>
    obtain ⟨op, hd, tl⟩ := t
    by_cases h : hd = true
    · subst h
      simp only [partGo, blkGo, if_true, ih, List.append_assoc, List.cons_append,
        List.nil_append, List.singleton_append]
    · have h' : hd = false := by simpa using h
      subst h'
      simp only [partGo, blkGo, if_false, Bool.false_eq_true, ih]

theorem blkGo_flatten (rest : List (Op × Bool × Bool)) (b : List AOp) (id : Nat) :
    (blkGo rest b id).flatten = b ++ annGo rest id := by
  induction rest generalizing b id with
  | nil => simp [blkGo, annGo]
  | cons t rest ih =>
    obtain ⟨op, hd, tl⟩ := t
    by_cases h : hd = true
    · subst h
      simp [blkGo, annGo, ih]
    · have h' : hd = false := by simpa using h
      subst h'
      simp [blkGo, annGo, ih]

theorem annGo_length (l : List (Op × Bool × Bool)) (id : Nat) :
    (annGo l id).length = l.length := by
  induction l generalizing id with
  | nil => simp [annGo]
  | cons t rest ih => obtain ⟨op, hd, tl⟩ := t; simp [annGo, ih]

theorem annGo_getD (l : List (Op × Bool × Bool)) (id i : Nat) (hi : i < l.length) :
    ((annGo l id).getD i default).op = (l.getD i default).1 ∧
    ((annGo l id).getD i default).head = (l.getD i default).2.1 ∧
    ((annGo l id).getD i default).tail = (l.getD i default).2.2 := by
  induction l generalizing id i with
  | nil => simp at hi
  | cons t rest ih =>
    obtain ⟨op, hd, tl⟩ := t
    cases i with
    | zero => simp [annGo]
    | succ j =>
      have hj : j < rest.length := by simpa using hi
      simpa [annGo] using ih (if hd then id + 1 else id) j hj

theorem annGo_mem (l : List (Op × Bool × Bool)) (id : Nat) (x : AOp)
    (hx : x ∈ annGo l id) :
    ∃ i, ∃ _ : i < l.length,
      x.op = (l.getD i default).1 ∧ x.head = (l.getD i default).2.1 ∧
      x.tail = (l.getD i default).2.2 := by
  induction l generalizing id with
  | nil => simp [annGo] at hx
  | cons t rest ih =>
    obtain ⟨op, hd, tl⟩ := t
    rcases (by simpa [annGo] using hx : x = ⟨op, hd, tl, id⟩ ∨
        x ∈ annGo rest (if hd then id + 1 else id)) with h | h
    · exact ⟨0, by simp, by simp [h]⟩
    · obtain ⟨i, hi, h⟩ := ih _ h
      exact ⟨i + 1, by simpa using hi, by simpa using h⟩

theorem tagged_length (ops : List Op) : (tagged ops).length = ops.length := by
  simp [tagged]

theorem tagged_getD (ops : List Op) (i : Nat) (hi : i < ops.length) :
    (tagged ops).getD i default =
      (ops.getD i default, isHeadAt ops i, breaks_basic_block (ops.getD i default)) := by
  have h1 : i < (tagged ops).length := by simpa [tagged_length] using hi
  rw [List.getD_eq_getElem _ _ h1, List.getD_eq_getElem _ _ hi]
  simp [tagged, List.getElem_enum]

theorem tagged_map_fst (ops : List Op) :
    (tagged ops).map (fun t => t.1) = ops := by
  have : ((fun t : Op × Bool × Bool => t.1) ∘
      fun p : Nat × Op => (p.2, isHeadAt ops p.1, breaks_basic_block p.2)) =
      Prod.snd := rfl
  simp [tagged, List.map_map, this, List.enum_map_snd]

theorem isHeadAt_zero (ops : List Op) : isHeadAt ops 0 = true := by
  simp [isHeadAt]

/-- For a non-empty input the blocks are exactly what `blkGo` produces from
the singleton block of the first instruction (which is always a head) with
the counter at 1; consequently the flattened blocks are `annGo` of the
tagged stream. This is the bridge from the accumulator-style `partGo` to
the recursors the proofs use. -/
theorem cfg_blocks_eq_blkGo (ops : List Op) (h : ops ≠ []) :
    ∃ op tl rest, tagged ops = (op, true, tl) :: rest ∧
      cfg_blocks ops = blkGo rest [⟨op, true, tl, 0⟩] 1 := by
  have hlen : 0 < (tagged ops).length := by
    rw [tagged_length]; exact List.length_pos.mpr h
  obtain ⟨t, rest, htag⟩ := List.exists_cons_of_ne_nil (List.ne_nil_of_length_pos hlen)
  obtain ⟨op, hd, tl⟩ := t
  have hhd : hd = true := by
    have h0 := tagged_getD ops 0 (by simpa [tagged_length] using hlen)
    rw [htag] at h0
    simpa [isHeadAt_zero] using congrArg (fun t => t.2.1) h0
  subst hhd
  refine ⟨op, tl, rest, htag, ?_⟩
  rw [cfg_blocks, htag]
  simp only [partGo, if_true]
  simpa using partGo_some rest [⟨op, true, tl, 0⟩] 1 []

theorem allOps_eq_annGo (ops : List Op) (h : ops ≠ []) :
    allOps ops = annGo (tagged ops) 0 := by
  obtain ⟨op, tl, rest, htag, hblocks⟩ := cfg_blocks_eq_blkGo ops h
  rw [allOps, hblocks, blkGo_flatten, htag]
  simp [annGo]

theorem allOps_length (ops : List Op) (h : ops ≠ []) :
    (allOps ops).length = ops.length := by
  rw [allOps_eq_annGo ops h, annGo_length, tagged_length]

theorem allOps_getD (ops : List Op) (i : Nat) (h : ops ≠ []) (hi : i < ops.length) :
    ((allOps ops).getD i default).op = ops.getD i default ∧
    ((allOps ops).getD i default).head = isHeadAt ops i ∧
    ((allOps ops).getD i default).tail = breaks_basic_block (ops.getD i default) := by
  rw [allOps_eq_annGo ops h]
  have := annGo_getD (tagged ops) 0 i (by simpa [tagged_length] using hi)
  rwa [tagged_getD ops i hi] at this

theorem mem_allOps (ops : List Op) (x : AOp) (h : ops ≠ []) (hx : x ∈ allOps ops) :
    ∃ i, ∃ _ : i < ops.length,
      x.op = ops.getD i default ∧ x.head = isHeadAt ops i ∧
      x.tail = breaks_basic_block (ops.getD i default) := by
  rw [allOps_eq_annGo ops h] at hx
  obtain ⟨i, hi, hx⟩ := annGo_mem (tagged ops) 0 x hx
  have hi' : i < ops.length := by simpa [tagged_length] using hi
  rw [tagged_getD ops i hi'] at hx
  exact ⟨i, hi', hx⟩

theorem allOps_map_op (ops : List Op) (h : ops ≠ []) :
    (allOps ops).map AOp.op = ops := by
  rw [allOps_eq_annGo ops h]
  have hmap : ∀ (l : List (Op × Bool × Bool)) (id : Nat),
      (annGo l id).map AOp.op = l.map (fun t => t.1) := by
    intro l
    induction l with
    | nil => intro id; simp [annGo]
    | cons t rest ih => obtain ⟨op, hd, tl⟩ := t; intro id; simp [annGo, ih]
  rw [hmap, tagged_map_fst]

/-- Structural invariant of the produced block list, relative to the value
`base` of the `cur_block_id` counter when the first of these blocks was
opened: every block is non-empty, starts with a head instruction whose
recorded `block_id` is its position in the list, and its later
instructions are non-heads whose recorded `block_id` is one past that
position (the counter had already been incremented when they were
appended). -/
def GoodBlocks (blocks : List (List AOp)) (base : Nat) : Prop :=
  ∀ k, ∀ _ : k < blocks.length,
    blockAt blocks k ≠ [] ∧
    (firstOp (blockAt blocks k)).head = true ∧
    (firstOp (blockAt blocks k)).block_id = base + k ∧
    ∀ j, ∀ _ : j < (blockAt blocks k).length, 0 < j →
      ((blockAt blocks k).getD j default).head = false ∧
      ((blockAt blocks k).getD j default).block_id = base + k + 1

theorem goodBlocks_nil (base : Nat) : GoodBlocks [] base := by
  intro k hk
  simp at hk

theorem blockAt_cons_zero (b : List AOp) (bs : List (List AOp)) :
    blockAt (b :: bs) 0 = b := rfl

theorem blockAt_cons_succ (b : List AOp) (bs : List (List AOp)) (k : Nat) :
    blockAt (b :: bs) (k + 1) = blockAt bs k := rfl

theorem goodBlocks_cons (b : List AOp) (bs : List (List AOp)) (base : Nat)
    (h1 : b ≠ []) (h2 : (firstOp b).head = true) (h3 : (firstOp b).block_id = base)
    (h4 : ∀ j, ∀ _ : j < b.length, 0 < j →
      (b.getD j default).head = false ∧ (b.getD j default).block_id = base + 1)
    (h5 : GoodBlocks bs (base + 1)) : GoodBlocks (b :: bs) base := by
  intro k hk
  cases k with
  | zero =>
    rw [blockAt_cons_zero]
    exact ⟨h1, h2, by simpa using h3, fun j hj hj0 => h4 j hj hj0⟩
  | succ k =>
    have hk' : k < bs.length := by simpa using hk
    have hgood := h5 k hk'
    rw [blockAt_cons_succ]
    refine ⟨hgood.1, hgood.2.1, hgood.2.2.1.trans (by omega), fun j hj hj0 => ?_⟩
    have := hgood.2.2.2 j hj hj0
    exact ⟨this.1, this.2.trans (by omega)⟩

theorem firstOp_append (b : List AOp) (l : List AOp) (h : b ≠ []) :
    firstOp (b ++ l) = firstOp b := by
  have h0 : 0 < b.length := List.length_pos.mpr h
  have h0' : 0 < (b ++ l).length := by rw [List.length_append]; omega
  rw [firstOp, firstOp, List.getD_eq_getElem _ _ h0',
    List.getD_eq_getElem _ _ h0, List.getElem_append_left h0]

theorem blkGo_good (rest : List (Op × Bool × Bool)) (b : List AOp) (id : Nat)
    (hid : 1 ≤ id) (h1 : b ≠ []) (h2 : (firstOp b).head = true)
    (h3 : (firstOp b).block_id = id - 1)
    (h4 : ∀ j, ∀ _ : j < b.length, 0 < j →
      (b.getD j default).head = false ∧ (b.getD j default).block_id = id) :
    GoodBlocks (blkGo rest b id) (id - 1) := by
  induction rest generalizing b id with
  | nil =>
    refine goodBlocks_cons b [] (id - 1) h1 h2 h3 (fun j hj hj0 => ?_) (goodBlocks_nil _)
    have := h4 j hj hj0
    exact ⟨this.1, this.2.trans (by omega)⟩
  | cons t rest ih =>
    obtain ⟨op, hd, tl⟩ := t
    by_cases hhd : hd = true
    · subst hhd
      rw [blkGo, if_pos rfl]
      have hgood : GoodBlocks (blkGo rest [⟨op, true, tl, id⟩] (id + 1)) id := by
        have := ih [⟨op, true, tl, id⟩] (id + 1) (by omega) (by simp)
          (by simp [firstOp]) (by simp [firstOp])
          (fun j hj hj0 => absurd hj0 (by simp at hj; omega))
        simpa using this
      refine goodBlocks_cons b _ (id - 1) h1 h2 h3 (fun j hj hj0 => ?_) ?_
      · have := h4 j hj hj0
        exact ⟨this.1, this.2.trans (by omega)⟩
      · have hrw : id - 1 + 1 = id := by omega
        rw [hrw]
        exact hgood
    · have hhd' : hd = false := by simpa using hhd
      subst hhd'
      rw [blkGo, if_neg (by simp)]
      refine ih (b ++ [⟨op, false, tl, id⟩]) id hid (by simp)
        (by rw [firstOp_append _ _ h1]; exact h2)
        (by rw [firstOp_append _ _ h1]; exact h3)
        (fun j hj hj0 => ?_)
      have hj' : j < b.length + 1 := by simpa using hj
      rcases Nat.lt_or_ge j b.length with hlt | hge
      · have hlt' : j < (b ++ [(⟨op, false, tl, id⟩ : AOp)]).length := by
          rw [List.length_append]; omega
        have hmem : (b ++ [(⟨op, false, tl, id⟩ : AOp)]).getD j default =
            b.getD j default := by
          rw [List.getD_eq_getElem _ _ hlt',
            List.getD_eq_getElem _ _ hlt, List.getElem_append_left hlt]
        rw [hmem]
        exact h4 j hlt hj0
      · have hje : j = b.length := by omega
        subst hje
        have hmem : (b ++ [(⟨op, false, tl, id⟩ : AOp)]).getD b.length default =
            (⟨op, false, tl, id⟩ : AOp) := by
          rw [List.getD_eq_getElem _ _ (by simp)]
          simp
        rw [hmem]
        exact ⟨rfl, rfl⟩

theorem cfg_blocks_good (ops : List Op) (h : ops ≠ []) :
    GoodBlocks (cfg_blocks ops) 0 := by
  obtain ⟨op, tl, rest, htag, hblocks⟩ := cfg_blocks_eq_blkGo ops h
  rw [hblocks]
  have := blkGo_good rest [⟨op, true, tl, 0⟩] 1 (by omega) (by simp)
    (by simp [firstOp]) (by simp [firstOp])
    (fun j hj hj0 => by simp at hj; omega)
  simpa using this

theorem blockAt_mem (blocks : List (List AOp)) (k : Nat) (hk : k < blocks.length) :
    blockAt blocks k ∈ blocks := by
  rw [blockAt, List.getD_eq_getElem _ _ hk]
  exact List.getElem_mem hk

theorem firstOp_mem (b : List AOp) (h : b ≠ []) : firstOp b ∈ b := by
  have h0 : 0 < b.length := List.length_pos.mpr h
  rw [firstOp, List.getD_eq_getElem _ _ h0]
  exact List.getElem_mem h0

theorem lastOp_mem (b : List AOp) (h : b ≠ []) : lastOp b ∈ b := by
  have h0 : 0 < b.length := List.length_pos.mpr h
  have h1 : b.length - 1 < b.length := by omega
  rw [lastOp, List.getD_eq_getElem _ _ h1]
  exact List.getElem_mem h1

theorem mem_allOps_of_mem_blockAt (ops : List Op) (k : Nat) (x : AOp)
    (hk : k < (cfg_blocks ops).length) (hx : x ∈ blockAt (cfg_blocks ops) k) :
    x ∈ allOps ops := by
  rw [allOps, List.mem_flatten]
  exact ⟨blockAt (cfg_blocks ops) k, blockAt_mem _ k hk, hx⟩

theorem allOps_facts (ops : List Op) (h : ops ≠ []) (x : AOp) (hx : x ∈ allOps ops) :
    x.tail = breaks_basic_block x.op ∧ x.op ∈ ops := by
  obtain ⟨i, hi, hop, _, htl⟩ := mem_allOps ops x h hx
  refine ⟨by rw [htl, hop], ?_⟩
  rw [hop, List.getD_eq_getElem _ _ hi]
  exact List.getElem_mem hi

theorem breaks_ne_hlt (op : Op) (hb : breaks_basic_block op = true) :
    op.mnemonic ≠ Mnemonic.hlt := by
  intro hh
  simp [breaks_basic_block, hh, ARGMODE_IMMEDIATE] at hb

/-- A head instruction stored in the output is the first instruction of
its block, and its recorded `block_id` is the position of that block in
the block list. -/
theorem head_is_first (ops : List Op) (h : ops ≠ []) (x : AOp)
    (hx : x ∈ allOps ops) (hhead : x.head = true) :
    ∃ k, ∃ _ : k < (cfg_blocks ops).length,
      x = firstOp (blockAt (cfg_blocks ops) k) ∧ x.block_id = k := by
  rw [allOps, List.mem_flatten] at hx
  obtain ⟨b, hb, hxb⟩ := hx
  obtain ⟨k, hk, hbk⟩ := List.mem_iff_getElem.mp hb
  have hba : blockAt (cfg_blocks ops) k = b := by
    rw [blockAt, List.getD_eq_getElem _ _ hk, hbk]
  obtain ⟨j, hj, hxj⟩ := List.mem_iff_getElem.mp hxb
  have hgood := cfg_blocks_good ops h k hk
  rcases Nat.eq_zero_or_pos j with hj0 | hj0
  · subst hj0
    have hfx : firstOp (blockAt (cfg_blocks ops) k) = x := by
      rw [hba, firstOp, List.getD_eq_getElem _ _ hj, hxj]
    refine ⟨k, hk, hfx.symm, ?_⟩
    have := hgood.2.2.1
    rw [hfx] at this
    simpa using this
  · exfalso
    have := (hgood.2.2.2 j (by rwa [hba]) hj0).1
    rw [hba, List.getD_eq_getElem _ _ hj, hxj, hhead] at this
    exact Bool.true_eq_false.mp this

/-- The jump target found in `addr_to_op` for a tail stored in the output
was marked as a head by the third marking pass. -/
theorem addr_target_head (ops : List Op) (h : ops ≠ []) (src dst : AOp)
    (hsrc : src ∈ allOps ops) (htail : src.tail = true)
    (hdst : addr_to_op ops (jump_addr src.op) = some dst) : dst.head = true := by
  have hpc : (dst.op.pc : Int) = jump_addr src.op := by
    have := List.find?_some hdst
    simpa using this
  have hdstmem : dst ∈ allOps ops := List.mem_of_find?_eq_some hdst
  obtain ⟨i, hi, hop, hhead, _⟩ := mem_allOps ops dst h hdstmem
  have hsrcop : src.op ∈ ops := (allOps_facts ops h src hsrc).2
  have hbreaks : breaks_basic_block src.op = true := by
    rw [← (allOps_facts ops h src hsrc).1]; exact htail
  rw [hhead]
  have hany : ops.any (fun t =>
      breaks_basic_block t && (jump_addr t == ((ops.getD i default).pc : Int))) = true := by
    rw [List.any_eq_true]
    refine ⟨src.op, hsrcop, ?_⟩
    rw [Bool.and_eq_true, hbreaks]
    exact ⟨rfl, by rw [beq_iff_eq, ← hop, hpc]⟩
  rw [isHeadAt.eq_def, hany]
  simp

theorem mem_cfg_edges (ops : List Op) (e : Nat × Nat × Nat) :
    e ∈ cfg_edges ops ↔
      ∃ i, i < (cfg_blocks ops).length - 1 ∧
        e ∈ edge_step ops (cfg_blocks ops) i := by
  simp [cfg_edges, List.mem_flatMap, List.mem_range]

theorem edge_step_cases (ops : List Op) (blocks : List (List AOp)) (i : Nat)
    (e : Nat × Nat × Nat) (he : e ∈ edge_step ops blocks i) :
    (lastOp (blockAt blocks i)).op.mnemonic ≠ Mnemonic.hlt ∧
    (e = (i, i + 1,
        if (lastOp (blockAt blocks i)).tail && (firstOp (blockAt blocks (i + 1))).head
        then J_FALSE else J_UNCONDITIONAL) ∨
      ((lastOp (blockAt blocks i)).tail = true ∧ ∃ dst,
        addr_to_op ops (jump_addr (lastOp (blockAt blocks i)).op) = some dst ∧
        e = (i, dst.block_id, J_TRUE))) := by
  by_cases hhlt : (lastOp (blockAt blocks i)).op.mnemonic = Mnemonic.hlt
  · rw [edge_step, if_pos (by simpa using hhlt)] at he
    simp at he
  · rw [edge_step, if_neg (by simpa using hhlt)] at he
    refine ⟨hhlt, ?_⟩
    rcases List.mem_append.mp he with hl | hr
    · by_cases htail : (lastOp (blockAt blocks i)).tail = true
      · rw [if_pos htail] at hl
        cases hfind : addr_to_op ops (jump_addr (lastOp (blockAt blocks i)).op) with
        | none => rw [hfind] at hl; simp at hl
        | some dst =>
          rw [hfind] at hl
          exact Or.inr ⟨htail, dst, rfl, List.mem_singleton.mp hl⟩
      · rw [if_neg htail] at hl
        simp at hl
    · exact Or.inl (List.mem_singleton.mp hr)

theorem edge_step_src (ops : List Op) (blocks : List (List AOp)) (i : Nat)
    (e : Nat × Nat × Nat) (he : e ∈ edge_step ops blocks i) : e.1 = i := by
  rcases (edge_step_cases ops blocks i e he).2 with hl | ⟨_, dst, _, hr⟩
  · rw [hl]
  · rw [hr]

theorem edge_step_fall_mem (ops : List Op) (blocks : List (List AOp)) (i : Nat)
    (hhlt : (lastOp (blockAt blocks i)).op.mnemonic ≠ Mnemonic.hlt) :
    (i, i + 1,
      if (lastOp (blockAt blocks i)).tail && (firstOp (blockAt blocks (i + 1))).head
      then J_FALSE else J_UNCONDITIONAL) ∈ edge_step ops blocks i := by
  rw [edge_step, if_neg (by simpa using hhlt)]
  exact List.mem_append.mpr (Or.inr (List.mem_singleton.mpr rfl))

theorem edge_step_true_mem (ops : List Op) (blocks : List (List AOp)) (i : Nat)
    (dst : AOp) (hhlt : (lastOp (blockAt blocks i)).op.mnemonic ≠ Mnemonic.hlt)
    (htail : (lastOp (blockAt blocks i)).tail = true)
    (hdst : addr_to_op ops (jump_addr (lastOp (blockAt blocks i)).op) = some dst) :
    (i, dst.block_id, J_TRUE) ∈ edge_step ops blocks i := by
  rw [edge_step, if_neg (by simpa using hhlt), if_pos htail, hdst]
  exact List.mem_append.mpr (Or.inl (List.mem_singleton.mpr rfl))

theorem cfg_blocks_nil : cfg_blocks [] = [] := rfl

/-! Concrete decoded programs used as witnesses and counterexamples. Each
is the instruction stream the decode loop yields on a small intcode
program: addresses start at 0 and advance by the instruction lengths. -/

/-- A single conditional jump (immediate target) to its own address. -/
def exSelfJump : List Op := [⟨0, 3, Mnemonic.jnz, [1, 1], [1, 0]⟩]

/-- A conditional jump whose target is the following halt instruction. -/
def exJumpToNext : List Op :=
  [⟨0, 3, Mnemonic.jnz, [1, 1], [1, 3]⟩, ⟨3, 1, Mnemonic.hlt, [], []⟩]

/-- A conditional jump targeting an invalid-opcode filler instruction,
followed by a halt in the same block as the filler. -/
def exJumpToInvalid : List Op :=
  [⟨0, 3, Mnemonic.jnz, [1, 1], [1, 3]⟩, ⟨3, 1, Mnemonic.invalid, [], []⟩,
   ⟨4, 1, Mnemonic.hlt, [], []⟩]

/-- A conditional jump over a halt instruction to an add instruction, so
that the middle block ends in a halt and is not the last block. -/
def exJumpOverHalt : List Op :=
  [⟨0, 3, Mnemonic.jz, [1, 1], [1, 4]⟩, ⟨3, 1, Mnemonic.hlt, [], []⟩,
   ⟨4, 4, Mnemonic.add, [0, 0, 0], [10, 20, 30]⟩]

/-- A conditional jump to a mid-instruction address: address 2 lies inside
the jump instruction itself, so no decoded instruction has that address. -/
def exUnresolved : List Op :=
  [⟨0, 3, Mnemonic.jnz, [1, 1], [1, 2]⟩, ⟨3, 1, Mnemonic.hlt, [], []⟩]

/-- C1: for every non-empty input instruction sequence, the blocks
produced by the partitioner form an exact partition of the input: every
block is non-empty, and concatenating the blocks in id order yields
exactly the input sequence in address order, so every instruction appears
in exactly one block with no duplication, omission, or reordering, and
block contents are contiguous. -/
theorem C1_partition_exact (ops : List Op) (h : ops ≠ []) :
    ((cfg_blocks ops).flatten).map AOp.op = ops ∧
      ∀ b ∈ cfg_blocks ops, b ≠ [] := by
  constructor
  · exact allOps_map_op ops h
  · intro b hb
    obtain ⟨k, hk, hbk⟩ := List.mem_iff_getElem.mp hb
    have := (cfg_blocks_good ops h k hk).1
    rwa [blockAt, List.getD_eq_getElem _ _ hk, hbk] at this

theorem C1_witness :
    ((cfg_blocks exJumpToInvalid).flatten).map AOp.op = exJumpToInvalid ∧
      ∀ b ∈ cfg_blocks exJumpToInvalid, b ≠ [] :=
  C1_partition_exact exJumpToInvalid (by decide)

/-- C10: an input of exactly one instruction yields exactly one block with
id 0 holding that instruction with the head flag set, and an empty edge
list, whatever the instruction is (tail, halt or invalid opcode alike). -/
theorem C10_single_instruction (op : Op) :
    cfg_blocks [op] = [[⟨op, true, breaks_basic_block op, 0⟩]] ∧
      cfg_edges [op] = [] := by
  have htag : tagged [op] = [(op, true, breaks_basic_block op)] := by
    simp [tagged, isHeadAt_zero]
  have hblocks : cfg_blocks [op] = [[⟨op, true, breaks_basic_block op, 0⟩]] := by
    rw [cfg_blocks, htag]
    simp [partGo]
  refine ⟨hblocks, ?_⟩
  rw [cfg_edges, hblocks]
  simp

/-- C9: the final block has no outgoing edges: every edge's source is a
block position strictly before the last one, because the edge loop only
visits consecutive block pairs. -/
theorem C9_last_block_no_edges (ops : List Op) (h : ops ≠ []) :
    ∀ e ∈ cfg_edges ops,
      e.1 + 1 < (cfg_blocks ops).length ∧
      e.1 ≠ (cfg_blocks ops).length - 1 := by
  intro e he
  obtain ⟨i, hi, hstep⟩ := (mem_cfg_edges ops e).mp he
  have hsrc := edge_step_src ops (cfg_blocks ops) i e hstep
  omega

theorem C9_witness :
    (0, 1, J_TRUE).1 + 1 < (cfg_blocks exJumpToInvalid).length ∧
      (0, 1, J_TRUE).1 ≠ (cfg_blocks exJumpToInvalid).length - 1 :=
  C9_last_block_no_edges exJumpToInvalid (by decide) (0, 1, J_TRUE) (by decide)

/-- C3: a block whose last instruction is a halt emits no outgoing edges
at all: no edge in the output has that block's position as its source. -/
theorem C3_halt_no_outgoing (ops : List Op) (h : ops ≠ []) (k : Nat)
    (hk : k < (cfg_blocks ops).length)
    (hhlt : (lastOp (blockAt (cfg_blocks ops) k)).op.mnemonic = Mnemonic.hlt) :
    ∀ d kind, (k, d, kind) ∉ cfg_edges ops := by
  intro d kind hmem
  obtain ⟨i, hi, hstep⟩ := (mem_cfg_edges ops _).mp hmem
  have hsrc : k = i := edge_step_src ops (cfg_blocks ops) i _ hstep
  subst hsrc
  exact (edge_step_cases ops (cfg_blocks ops) k _ hstep).1 hhlt

theorem C3_witness : (1, 2, J_UNCONDITIONAL) ∉ cfg_edges exJumpOverHalt :=
  C3_halt_no_outgoing exJumpOverHalt (by decide) 1 (by decide) (by decide)
    2 J_UNCONDITIONAL

/-- C6: the tail flag stored on every instruction of the output is set iff
the instruction is a conditional jump (`jnz` or `jz`) whose jump-target
argument (the second argument, index 1) uses immediate addressing; every
other instruction is never a tail. -/
theorem C6_tail_iff (ops : List Op) (x : AOp) (hx : x ∈ allOps ops) :
    x.tail = true ↔
      ((x.op.mnemonic = Mnemonic.jnz ∨ x.op.mnemonic = Mnemonic.jz) ∧
        x.op.argmodes.getD 1 0 = ARGMODE_IMMEDIATE) := by
  by_cases h : ops = []
  · subst h
    rw [show allOps ([] : List Op) = [] from rfl] at hx
    exact absurd hx (List.not_mem_nil x)
  · rw [(allOps_facts ops h x hx).1, breaks_basic_block]
    simp [Bool.and_eq_true, Bool.or_eq_true, beq_iff_eq]

theorem C6_witness :
    (⟨⟨0, 3, Mnemonic.jnz, [1, 1], [1, 0]⟩, true, true, 0⟩ : AOp).tail = true ↔
      (((⟨⟨0, 3, Mnemonic.jnz, [1, 1], [1, 0]⟩, true, true, 0⟩ : AOp).op.mnemonic =
          Mnemonic.jnz ∨
        (⟨⟨0, 3, Mnemonic.jnz, [1, 1], [1, 0]⟩, true, true, 0⟩ : AOp).op.mnemonic =
          Mnemonic.jz) ∧
        (⟨⟨0, 3, Mnemonic.jnz, [1, 1], [1, 0]⟩, true, true, 0⟩ : AOp).op.argmodes.getD 1 0 =
          ARGMODE_IMMEDIATE) :=
  C6_tail_iff exSelfJump ⟨⟨0, 3, Mnemonic.jnz, [1, 1], [1, 0]⟩, true, true, 0⟩
    (by decide)

theorem isHeadAt_iff (ops : List Op) (i : Nat) :
    isHeadAt ops i = true ↔
      (i = 0 ∨
       (0 < i ∧ breaks_basic_block (ops.getD (i - 1) default) = true) ∨
       ∃ t ∈ ops, breaks_basic_block t = true ∧
         jump_addr t = ((ops.getD i default).pc : Int)) := by
  cases i with
  | zero =>
    simp [isHeadAt_zero]
  | succ j =>
    rw [isHeadAt.eq_def]
    simp [Bool.or_eq_true, List.any_eq_true, Bool.and_eq_true, beq_iff_eq]

/-- C7: inside every produced block only the first instruction can carry
the head flag, and across the stream the head flag is set exactly for the
first instruction, the instructions whose immediate predecessor is a tail,
and the instructions whose address is the jump target of some tail. -/
theorem C7_heads (ops : List Op) (h : ops ≠ []) :
    (∀ k, ∀ _ : k < (cfg_blocks ops).length,
      ∀ j, ∀ _ : j < (blockAt (cfg_blocks ops) k).length, 0 < j →
        ((blockAt (cfg_blocks ops) k).getD j default).head = false) ∧
    (∀ i, ∀ _ : i < ops.length,
      (((allOps ops).getD i default).head = true ↔
        (i = 0 ∨
         (0 < i ∧ breaks_basic_block (ops.getD (i - 1) default) = true) ∨
         ∃ t ∈ ops, breaks_basic_block t = true ∧
           jump_addr t = ((ops.getD i default).pc : Int)))) := by
  constructor
  · intro k hk j hj hj0
    exact ((cfg_blocks_good ops h k hk).2.2.2 j hj hj0).1
  · intro i hi
    rw [(allOps_getD ops i h hi).2.1]
    exact isHeadAt_iff ops i

theorem C7_witness :
    ((blockAt (cfg_blocks exJumpToInvalid) 1).getD 1 default).head = false :=
  (C7_heads exJumpToInvalid (by decide)).1 1 (by decide) 1 (by decide) (by decide)

/-- C2 counterexample: a single-instruction program whose only block ends
in a tail with a resolvable jump target (to itself), yet the edge list is
empty, so no TRUE edge with that block's id exists: the claim's "if"
direction fails on the last block. -/
theorem C2_counterexample :
    (cfg_blocks exSelfJump).length = 1 ∧
    (lastOp (blockAt (cfg_blocks exSelfJump) 0)).tail = true ∧
    addr_to_op exSelfJump
      (jump_addr (lastOp (blockAt (cfg_blocks exSelfJump) 0)).op) ≠ none ∧
    cfg_edges exSelfJump = [] := by decide

/-- C2 (amended): for every block except the last one, a TRUE edge with
that block's id as source exists iff the block's last instruction is a
tail whose jump target address is the address of some decoded instruction;
when it exists, its target is the id of the block containing the target
instruction. -/
theorem C2_true_edge (ops : List Op) (i : Nat)
    (hi : i + 1 < (cfg_blocks ops).length) :
    ((∃ d, (i, d, J_TRUE) ∈ cfg_edges ops) ↔
      ((lastOp (blockAt (cfg_blocks ops) i)).tail = true ∧
        addr_to_op ops
          (jump_addr (lastOp (blockAt (cfg_blocks ops) i)).op) ≠ none)) ∧
    (∀ d, (i, d, J_TRUE) ∈ cfg_edges ops →
      ∃ dst, addr_to_op ops
          (jump_addr (lastOp (blockAt (cfg_blocks ops) i)).op) = some dst ∧
        d = dst.block_id ∧ dst ∈ blockAt (cfg_blocks ops) d) := by
  have h : ops ≠ [] := by
    intro h0
    rw [h0, cfg_blocks_nil] at hi
    simp at hi
  have hik : i < (cfg_blocks ops).length := by omega
  have hlast_mem : lastOp (blockAt (cfg_blocks ops) i) ∈ allOps ops :=
    mem_allOps_of_mem_blockAt ops i _ hik
      (lastOp_mem _ (cfg_blocks_good ops h i hik).1)
  have hfwd : ∀ d, (i, d, J_TRUE) ∈ cfg_edges ops →
      (lastOp (blockAt (cfg_blocks ops) i)).tail = true ∧
      ∃ dst, addr_to_op ops
          (jump_addr (lastOp (blockAt (cfg_blocks ops) i)).op) = some dst ∧
        d = dst.block_id := by
    intro d hd
    obtain ⟨i', hi', hstep⟩ := (mem_cfg_edges ops _).mp hd
    have hsrc : i = i' := by
      simpa using edge_step_src ops (cfg_blocks ops) i' _ hstep
    subst hsrc
    rcases (edge_step_cases ops (cfg_blocks ops) i _ hstep).2 with
      hfall | ⟨htail, dst, hfind, heq⟩
    · exfalso
      have h22 : J_TRUE = (if (lastOp (blockAt (cfg_blocks ops) i)).tail &&
          (firstOp (blockAt (cfg_blocks ops) (i + 1))).head
          then J_FALSE else J_UNCONDITIONAL) := by
        simpa using congrArg (fun e : Nat × Nat × Nat => e.2.2) hfall
      by_cases hc : ((lastOp (blockAt (cfg_blocks ops) i)).tail &&
          (firstOp (blockAt (cfg_blocks ops) (i + 1))).head) = true
      · rw [if_pos hc] at h22
        exact absurd h22 (by decide)
      · rw [if_neg hc] at h22
        exact absurd h22 (by decide)
    · have hd_eq : d = dst.block_id := by
        simpa using congrArg (fun e : Nat × Nat × Nat => e.2.1) heq
      exact ⟨htail, dst, hfind, hd_eq⟩
  refine ⟨⟨?_, ?_⟩, ?_⟩
  · rintro ⟨d, hd⟩
    obtain ⟨htail, dst, hfind, _⟩ := hfwd d hd
    refine ⟨htail, ?_⟩
    rw [hfind]
    exact Option.some_ne_none dst
  · rintro ⟨htail, hne⟩
    obtain ⟨dst, hfind⟩ := Option.ne_none_iff_exists'.mp hne
    have hhlt : (lastOp (blockAt (cfg_blocks ops) i)).op.mnemonic ≠
        Mnemonic.hlt := by
      apply breaks_ne_hlt
      rw [← (allOps_facts ops h _ hlast_mem).1]
      exact htail
    refine ⟨dst.block_id, (mem_cfg_edges ops _).mpr ⟨i, by omega, ?_⟩⟩
    exact edge_step_true_mem ops (cfg_blocks ops) i dst hhlt htail hfind
  · intro d hd
    obtain ⟨htail, dst, hfind, hdeq⟩ := hfwd d hd
    have hhead : dst.head = true :=
      addr_target_head ops h _ dst hlast_mem htail hfind
    have hdst_mem : dst ∈ allOps ops := List.mem_of_find?_eq_some hfind
    obtain ⟨k, hk, hfirst, hbid⟩ := head_is_first ops h dst hdst_mem hhead
    refine ⟨dst, hfind, hdeq, ?_⟩
    have hdk : d = k := by rw [hdeq, hbid]
    rw [hdk, hfirst]
    exact firstOp_mem _ (cfg_blocks_good ops h k hk).1

theorem C2_witness :
    ((∃ d, (0, d, J_TRUE) ∈ cfg_edges exJumpToInvalid) ↔
      ((lastOp (blockAt (cfg_blocks exJumpToInvalid) 0)).tail = true ∧
        addr_to_op exJumpToInvalid
          (jump_addr (lastOp (blockAt (cfg_blocks exJumpToInvalid) 0)).op) ≠
          none)) ∧
    (∀ d, (0, d, J_TRUE) ∈ cfg_edges exJumpToInvalid →
      ∃ dst, addr_to_op exJumpToInvalid
          (jump_addr (lastOp (blockAt (cfg_blocks exJumpToInvalid) 0)).op) =
          some dst ∧
        d = dst.block_id ∧ dst ∈ blockAt (cfg_blocks exJumpToInvalid) d) :=
  C2_true_edge exJumpToInvalid 0 (by decide)

/-- C8: every edge's source and target ids are valid indices into the
block list; the `block_id` recorded on a block's first (head) instruction
equals the block's list index while every later instruction records one
more than that index; and each TRUE edge's target id, read from the head
instruction at the jump target address, is the index of the block
containing that head. -/
theorem C8_edge_ids (ops : List Op) (h : ops ≠ []) :
    (∀ e ∈ cfg_edges ops,
      e.1 < (cfg_blocks ops).length ∧
      e.2.1 < (cfg_blocks ops).length ∧
      (e.2.2 = J_TRUE →
        ∃ dst ∈ allOps ops, dst.head = true ∧ e.2.1 = dst.block_id ∧
          dst ∈ blockAt (cfg_blocks ops) e.2.1)) ∧
    (∀ k, ∀ _ : k < (cfg_blocks ops).length,
      (firstOp (blockAt (cfg_blocks ops) k)).block_id = k ∧
      ∀ j, ∀ _ : j < (blockAt (cfg_blocks ops) k).length, 0 < j →
        ((blockAt (cfg_blocks ops) k).getD j default).block_id = k + 1) := by
  constructor
  · intro e he
    obtain ⟨i, hi, hstep⟩ := (mem_cfg_edges ops e).mp he
    have hsrc : e.1 = i := edge_step_src ops (cfg_blocks ops) i e hstep
    have hik : i < (cfg_blocks ops).length := by omega
    rcases (edge_step_cases ops (cfg_blocks ops) i e hstep).2 with
      hfall | ⟨htail, dst, hfind, heq⟩
    · refine ⟨by omega, ?_, ?_⟩
      · have h21 : e.2.1 = i + 1 := by
          simpa using congrArg (fun e : Nat × Nat × Nat => e.2.1) hfall
        omega
      · intro habs
        exfalso
        have h22 : e.2.2 = (if (lastOp (blockAt (cfg_blocks ops) i)).tail &&
            (firstOp (blockAt (cfg_blocks ops) (i + 1))).head
            then J_FALSE else J_UNCONDITIONAL) := by
          simpa using congrArg (fun e : Nat × Nat × Nat => e.2.2) hfall
        rw [habs] at h22
        by_cases hc : ((lastOp (blockAt (cfg_blocks ops) i)).tail &&
            (firstOp (blockAt (cfg_blocks ops) (i + 1))).head) = true
        · rw [if_pos hc] at h22
          exact absurd h22 (by decide)
        · rw [if_neg hc] at h22
          exact absurd h22 (by decide)
    · have hlast_mem : lastOp (blockAt (cfg_blocks ops) i) ∈ allOps ops :=
        mem_allOps_of_mem_blockAt ops i _ hik
          (lastOp_mem _ (cfg_blocks_good ops h i hik).1)
      have hhead : dst.head = true :=
        addr_target_head ops h _ dst hlast_mem htail hfind
      have hdst_mem : dst ∈ allOps ops := List.mem_of_find?_eq_some hfind
      obtain ⟨k, hk, hfirst, hbid⟩ := head_is_first ops h dst hdst_mem hhead
      have he21 : e.2.1 = dst.block_id :=
        congrArg (fun e : Nat × Nat × Nat => e.2.1) heq
      refine ⟨by omega, ?_, fun _ => ⟨dst, hdst_mem, hhead, he21, ?_⟩⟩
      · rw [he21, hbid]
        exact hk
      · rw [he21, hbid, hfirst]
        exact firstOp_mem _ (cfg_blocks_good ops h k hk).1
  · intro k hk
    have hgood := cfg_blocks_good ops h k hk
    refine ⟨by simpa using hgood.2.2.1, fun j hj hj0 => ?_⟩
    have := (hgood.2.2.2 j hj hj0).2
    simpa using this

theorem C8_witness :
    (0, 1, J_TRUE).1 < (cfg_blocks exJumpToInvalid).length ∧
    (0, 1, J_TRUE).2.1 < (cfg_blocks exJumpToInvalid).length ∧
    ((0, 1, J_TRUE).2.2 = J_TRUE →
      ∃ dst ∈ allOps exJumpToInvalid, dst.head = true ∧
        (0, 1, J_TRUE).2.1 = dst.block_id ∧
        dst ∈ blockAt (cfg_blocks exJumpToInvalid) (0, 1, J_TRUE).2.1) :=
  (C8_edge_ids exJumpToInvalid (by decide)).1 (0, 1, J_TRUE) (by decide)

theorem flatMap_single {β : Type} (l : List Nat) (g : Nat → List β) (i : Nat)
    (e : β) (hnd : l.Nodup) (hi : i ∈ l) (hgi : g i = [e])
    (hother : ∀ j ∈ l, j ≠ i → g j = []) : l.flatMap g = [e] := by
  induction l with
  | nil => simp at hi
  | cons a l ih =>
    rw [List.flatMap_cons]
    rcases List.mem_cons.mp hi with rfl | hmem
    · rw [hgi]
      have hrest : l.flatMap g = [] := by
        rw [List.flatMap_eq_nil_iff]
        intro j hj
        exact hother j (List.mem_cons_of_mem _ hj)
          (fun hji => (List.nodup_cons.mp hnd).1 (hji ▸ hj))
      rw [hrest, List.append_nil]
    · have ha : g a = [] := by
        apply hother a (List.mem_cons_self a l)
        intro hai
        subst hai
        exact (List.nodup_cons.mp hnd).1 hmem
      rw [ha, List.nil_append]
      exact ih (List.nodup_cons.mp hnd).2 hmem
        (fun j hj hji => hother j (List.mem_cons_of_mem _ hj) hji)

/-- C4 counterexample: when a tail's jump target is the head of the very
next block, both the TRUE edge and the FALSE fallthrough edge target the
immediately following block, so two (not exactly one) edges from the block
target its successor. -/
theorem C4_counterexample :
    (cfg_blocks exJumpToNext).length = 2 ∧
    (lastOp (blockAt (cfg_blocks exJumpToNext) 0)).op.mnemonic ≠ Mnemonic.hlt ∧
    ((cfg_edges exJumpToNext).filter
      (fun e => e.1 == 0 && e.2.1 == 1)).length = 2 := by decide

/-- C4 (amended): for every block except the last whose last instruction
is not a halt, exactly one edge of kind other than TRUE leaves it, that
edge targets the immediately following block, and its kind is FALSE iff
the block's last instruction is a tail (UNCONDITIONAL otherwise). (A TRUE
edge may additionally target the same following block when the jump target
lies there.) -/
theorem C4_fallthrough (ops : List Op) (i : Nat)
    (hi : i + 1 < (cfg_blocks ops).length)
    (hhlt : (lastOp (blockAt (cfg_blocks ops) i)).op.mnemonic ≠ Mnemonic.hlt) :
    (cfg_edges ops).filter (fun e => e.1 == i && !(e.2.2 == J_TRUE)) =
      [(i, i + 1, if (lastOp (blockAt (cfg_blocks ops) i)).tail
        then J_FALSE else J_UNCONDITIONAL)] := by
  have h : ops ≠ [] := by
    intro h0
    rw [h0, cfg_blocks_nil] at hi
    simp at hi
  have hcur : (firstOp (blockAt (cfg_blocks ops) (i + 1))).head = true :=
    (cfg_blocks_good ops h (i + 1) hi).2.1
  rw [cfg_edges, List.filter_flatMap]
  apply flatMap_single _ _ i _ (List.nodup_range _)
    (List.mem_range.mpr (by omega))
  · rw [edge_step, if_neg (by simpa using hhlt), List.filter_append]
    have hopt : (if (lastOp (blockAt (cfg_blocks ops) i)).tail then
        match addr_to_op ops (jump_addr (lastOp (blockAt (cfg_blocks ops) i)).op) with
        | some dst => [(i, dst.block_id, J_TRUE)]
        | none => []
      else []).filter (fun e => e.1 == i && !(e.2.2 == J_TRUE)) = [] := by
      by_cases htail : (lastOp (blockAt (cfg_blocks ops) i)).tail = true
      · rw [if_pos htail]
        cases addr_to_op ops (jump_addr (lastOp (blockAt (cfg_blocks ops) i)).op) with
        | none => simp
        | some dst => simp [J_TRUE]
      · rw [if_neg htail]
        simp
    rw [hopt, List.nil_append, hcur, Bool.and_true]
    by_cases htail : (lastOp (blockAt (cfg_blocks ops) i)).tail = true
    · rw [if_pos htail]
      simp [J_TRUE, J_FALSE]
    · rw [if_neg htail]
      simp [J_TRUE, J_UNCONDITIONAL]
  · intro j hj hne
    rw [List.filter_eq_nil_iff]
    intro e hee
    have hsrc := edge_step_src ops (cfg_blocks ops) j e hee
    simp [hsrc, hne]

theorem C4_witness :
    (cfg_edges exJumpToInvalid).filter (fun e => e.1 == 0 && !(e.2.2 == J_TRUE)) =
      [(0, 1, if (lastOp (blockAt (cfg_blocks exJumpToInvalid) 0)).tail
        then J_FALSE else J_UNCONDITIONAL)] :=
  C4_fallthrough exJumpToInvalid 0 (by decide) (by decide)

/-- C5 counterexample: the jump target address 3 is the address of an
invalid-opcode filler instruction, yet a TRUE edge to that instruction's
block is emitted, contradicting the claim that such targets yield no TRUE
edge: the `addr_to_op` dictionary holds the filler like any other decoded
instruction. -/
theorem C5_counterexample :
    (lastOp (blockAt (cfg_blocks exJumpToInvalid) 0)).tail = true ∧
    ((addr_to_op exJumpToInvalid
        (jump_addr (lastOp (blockAt (cfg_blocks exJumpToInvalid) 0)).op)).getD
      default).op.mnemonic = Mnemonic.invalid ∧
    (0, 1, J_TRUE) ∈ cfg_edges exJumpToInvalid := by decide

/-- C5 (amended): for every block ending in a tail whose jump target
address is not the address of any decoded instruction (out of the decoded
address range or mid-instruction), no TRUE edge with that block's id is
emitted; the omission is silent: no error is raised and the FALSE
fallthrough edge to the next block (when one exists) is still emitted. A
target matching an invalid-opcode filler instruction is resolved like any
other decoded instruction and does receive a TRUE edge. -/
theorem C5_unresolvable (ops : List Op) (k : Nat)
    (hk : k < (cfg_blocks ops).length)
    (htail : (lastOp (blockAt (cfg_blocks ops) k)).tail = true)
    (hnone : addr_to_op ops
      (jump_addr (lastOp (blockAt (cfg_blocks ops) k)).op) = none) :
    (∀ d, (k, d, J_TRUE) ∉ cfg_edges ops) ∧
    (k + 1 < (cfg_blocks ops).length → (k, k + 1, J_FALSE) ∈ cfg_edges ops) := by
  have h : ops ≠ [] := by
    intro h0
    rw [h0, cfg_blocks_nil] at hk
    simp at hk
  have hlast_mem : lastOp (blockAt (cfg_blocks ops) k) ∈ allOps ops :=
    mem_allOps_of_mem_blockAt ops k _ hk
      (lastOp_mem _ (cfg_blocks_good ops h k hk).1)
  have hhlt : (lastOp (blockAt (cfg_blocks ops) k)).op.mnemonic ≠
      Mnemonic.hlt := by
    apply breaks_ne_hlt
    rw [← (allOps_facts ops h _ hlast_mem).1]
    exact htail
  constructor
  · intro d hd
    obtain ⟨i, hi, hstep⟩ := (mem_cfg_edges ops _).mp hd
    have hsrc : k = i := by
      simpa using edge_step_src ops (cfg_blocks ops) i _ hstep
    subst hsrc
    rcases (edge_step_cases ops (cfg_blocks ops) k _ hstep).2 with
      hfall | ⟨_, dst, hfind, _⟩
    · have h22 : J_TRUE = (if (lastOp (blockAt (cfg_blocks ops) k)).tail &&
          (firstOp (blockAt (cfg_blocks ops) (k + 1))).head
          then J_FALSE else J_UNCONDITIONAL) := by
        simpa using congrArg (fun e : Nat × Nat × Nat => e.2.2) hfall
      by_cases hc : ((lastOp (blockAt (cfg_blocks ops) k)).tail &&
          (firstOp (blockAt (cfg_blocks ops) (k + 1))).head) = true
      · rw [if_pos hc] at h22
        exact absurd h22 (by decide)
      · rw [if_neg hc] at h22
        exact absurd h22 (by decide)
    · rw [hnone] at hfind
      exact Option.noConfusion hfind
  · intro hk1
    have hcur : (firstOp (blockAt (cfg_blocks ops) (k + 1))).head = true :=
      (cfg_blocks_good ops h (k + 1) hk1).2.1
    have hmem := edge_step_fall_mem ops (cfg_blocks ops) k hhlt
    rw [htail, hcur] at hmem
    simp only [Bool.and_self, if_pos] at hmem
    exact (mem_cfg_edges ops _).mpr ⟨k, by omega, hmem⟩

theorem C5_witness :
    (0, 5, J_TRUE) ∉ cfg_edges exUnresolved ∧
      (0, 1, J_FALSE) ∈ cfg_edges exUnresolved :=
  ⟨(C5_unresolvable exUnresolved 0 (by decide) (by decide) (by decide)).1 5,
   (C5_unresolvable exUnresolved 0 (by decide) (by decide) (by decide)).2
     (by decide)⟩

end IntcodeCFG
